import Mathlib

/-!
# Verification of the LUIS entity/intent normalization pipeline

Shallow embedding of `botbuilder/ai/luis/luis_util.py` and
`botbuilder/ai/luis/recognizer_result.py`.

Python strings are modelled as `List Char`; Python dicts (which preserve
insertion order) are modelled as ordered association lists; JSON payloads
(the provider's `resolution` objects and the produced entity values) are
modelled by the inductive type `JsonVal`, with Python floats as exact
rationals; code that can raise returns `Except PyError _`.
-/

set_option autoImplicit false

/-- Python strings, as lists of characters. -/
abbrev Str := List Char

/-- The classes of Python exception that the modelled code can raise. -/
inductive PyError where
  | attributeError
  | keyError
  | typeError
  | valueError
deriving DecidableEq, Repr

/-- A JSON-like Python value: `None`, strings, ints, floats (as exact
rationals), lists, and insertion-ordered dicts. -/
inductive JsonVal where
  | null : JsonVal
  | str (s : Str) : JsonVal
  | int (i : Int) : JsonVal
  | rat (q : ℚ) : JsonVal
  | list (xs : List JsonVal) : JsonVal
  | obj (fields : List (Str × JsonVal)) : JsonVal

/-- An insertion-ordered Python dict with string keys and JSON values. -/
abbrev EMap := List (Str × JsonVal)

mutual
/-- Python `==` on JSON values. Two abstractions: cross-type numeric
equality (`5 == 5.0`) and the key-order insensitivity of dict equality are
not modelled; the modelled pipeline never distinguishes either. -/
def JsonVal.beq : JsonVal → JsonVal → Bool
  | .null, .null => true
  | .str a, .str b => a == b
  | .int a, .int b => a == b
  | .rat a, .rat b => a == b
  | .list xs, .list ys => JsonVal.beqList xs ys
  | .obj fs, .obj gs => JsonVal.beqFields fs gs
  | _, _ => false

/-- Python `==` on lists of JSON values. -/
def JsonVal.beqList : List JsonVal → List JsonVal → Bool
  | [], [] => true
  | x :: xs, y :: ys => JsonVal.beq x y && JsonVal.beqList xs ys
  | _, _ => false

/-- Python `==` on the field lists of JSON dicts. -/
def JsonVal.beqFields : List (Str × JsonVal) → List (Str × JsonVal) → Bool
  | [], [] => true
  | (k, v) :: fs, (k', v') :: gs => k == k' && JsonVal.beq v v' && JsonVal.beqFields fs gs
  | _, _ => false
end

/-- First value stored under a key of an ordered dict (keys are unique in
every dict the modelled code builds). -/
def getVal {α : Type} (m : List (Str × α)) (k : Str) : Option α :=
  match m with
  | [] => none
  | p :: rest => if p.1 = k then some p.2 else getVal rest k

/-- Replace the value stored under a key, keeping its position. -/
def setVal {α : Type} (m : List (Str × α)) (k : Str) (v : α) : List (Str × α) :=
  m.map (fun p => if p.1 = k then (p.1, v) else p)

/-- Python truthiness of a `JsonVal`. -/
def pyTruthy : JsonVal → Bool
  | .null => false
  | .str s => !s.isEmpty
  | .int i => i != 0
  | .rat q => q != 0
  | .list xs => !xs.isEmpty
  | .obj fs => !fs.isEmpty

/-- Python `d[k]` on a JSON value: `KeyError` when the key is missing,
`TypeError` when the receiver is not a dict. -/
def getItem (r : JsonVal) (k : Str) : Except PyError JsonVal :=
  match r with
  | .obj fs =>
    match getVal fs k with
    | some v => .ok v
    | none => .error .keyError
  | _ => .error .typeError

/-- Whitespace characters recognised by `str.strip` / numeric parsing
(ASCII subset). -/
def wsChars : List Char := [' ', '\t', '\n', '\r', '\x0b', '\x0c']

/-- Strip leading and trailing whitespace. -/
def trimWs (s : Str) : Str :=
  ((s.dropWhile (fun c => wsChars.contains c)).reverse.dropWhile
    (fun c => wsChars.contains c)).reverse

/-- Consume an optional leading sign; returns (isNegative, rest). -/
def parseSign : Str → Bool × Str
  | '+' :: r => (false, r)
  | '-' :: r => (true, r)
  | s => (false, s)

/-- Numeric value of a list of ASCII digits. -/
def digitsToNat (ds : Str) : Nat :=
  ds.foldl (fun n c => 10 * n + (c.toNat - '0'.toNat)) 0

/-- Python `int(s)` on a string: optional surrounding whitespace, optional
sign, then one or more ASCII decimal digits (PEP 515 underscores and
non-ASCII digits are not modelled). -/
def parseInt (s : Str) : Option Int :=
  let t := trimWs s
  let sr := parseSign t
  if sr.2 ≠ [] ∧ sr.2.all Char.isDigit then
    some (if sr.1 then -(digitsToNat sr.2 : Int) else (digitsToNat sr.2 : Int))
  else none

/-- Python `float(s)` on a string: optional whitespace and sign, a mantissa
with at least one digit and an optional decimal point, and an optional
exponent (the IEEE specials `inf`/`nan` are not modelled). The resulting
rational is built with `mkRat` from integer arithmetic only. -/
def parseFloat (s : Str) : Option ℚ :=
  let t := trimWs s
  let sr := parseSign t
  let ip := sr.2.takeWhile Char.isDigit
  let r1 := sr.2.drop ip.length
  let fpr : Str × Str :=
    match r1 with
    | '.' :: rest => (rest.takeWhile Char.isDigit,
        rest.drop (rest.takeWhile Char.isDigit).length)
    | _ => ([], r1)
  if ip = [] ∧ fpr.1 = [] then none
  else
    let mantNum : Int := (digitsToNat ip * 10 ^ fpr.1.length + digitsToNat fpr.1 : Nat)
    let mantDen : Nat := 10 ^ fpr.1.length
    match fpr.2 with
    | [] => some (mkRat (if sr.1 then -mantNum else mantNum) mantDen)
    | e :: rest =>
      if e = 'e' ∨ e = 'E' then
        let esr := parseSign rest
        if esr.2 ≠ [] ∧ esr.2.all Char.isDigit then
          let ex := digitsToNat esr.2
          let num := if esr.1 then mantNum else mantNum * 10 ^ ex
          let den := if esr.1 then mantDen * 10 ^ ex else mantDen
          some (mkRat (if sr.1 then -num else num) den)
        else none
      else none

/-- Python `str` of a float value. Floats are modelled as exact rationals,
so we print the exact finite decimal expansion when one exists; the
shortest-round-trip repr of other binary floats is abstracted. -/
def ratStr (q : ℚ) : Str :=
  if q.den = 1 then (toString q.num).toList ++ ".0".toList
  else
    match (List.range 40).find? (fun k => (q * (10 : ℚ) ^ k).den = 1) with
    | some k =>
      let n := (q * (10 : ℚ) ^ k).num
      let sign : Str := if n < 0 then ['-'] else []
      let ds0 := (toString n.natAbs).toList
      let ds := if ds0.length ≤ k then List.replicate (k + 1 - ds0.length) '0' ++ ds0 else ds0
      sign ++ ds.take (ds.length - k) ++ ['.'] ++ ds.drop (ds.length - k)
    | none => (toString q).toList

/-- Python `str(value)`. String representations of lists and dicts are
abstracted (they are never numeric, which is all the modelled code
observes about them). -/
def pyStr : JsonVal → Str
  | .null => "None".toList
  | .str s => s
  | .int i => (toString i).toList
  | .rat q => ratStr q
  | .list _ => "[...]".toList
  | .obj _ => "\x7b...\x7d".toList

-- sanity checks on parsing helpers
example : parseInt " 42 ".toList = some 42 := by decide
example : parseInt "-7".toList = some (-7) := by decide
example : parseInt "2.5".toList = none := by decide
example : parseFloat "2.5".toList = some (mkRat 5 2) := by decide
example : parseFloat "50".toList = some (mkRat 50 1) := by decide
example : parseFloat "None".toList = none := by decide
example : JsonVal.beq (.obj [("a".toList, .int 1)]) (.obj [("a".toList, .int 1)]) = true := by decide

/-! ## Data model -/

/-- The dict stored in `EntityModel.additional_properties`, typed at the
keys the pipeline reads (`role`, `resolution`, `score`). A key present
with value `None` is not distinguished from an absent key. -/
structure AddProps where
  role : Option Str
  resolution : Option JsonVal
  score : Option ℚ

/-- One detected entity of the provider response (`EntityModel` of the
LUIS runtime SDK): type, matched text, inclusive character span, and the
additional-properties dict. -/
structure EntityModel where
  type : Str
  entity : Str
  start_index : Int
  end_index : Int
  additional_properties : Option AddProps

/-- One expected-child descriptor of a composite entity. -/
structure CompositeChildModel where
  type : Str

/-- One composite-entity descriptor of the provider response. -/
structure CompositeEntityModel where
  parent_type : Str
  value : Str
  children : List CompositeChildModel

/-- Modelled from the spec: `IntentScore` is declared outside the given
sources; per the spec (§3) it carries the confidence score attached to an
intent name. -/
structure IntentScore where
  score : ℚ

/-- One entry of the provider's intent list (LUIS SDK wire model, external
to this repository): an intent name and an optional score, per the input
interface of spec §6. -/
structure IntentModel where
  intent : Str
  score : Option ℚ

/-- The provider response fields consumed by `get_intents`. -/
structure LuisResultModel where
  intents : Option (List IntentModel)
  top_scoring_intent : Option IntentModel

/-- The output value type of `recognizer_result.py` (fields as in the
source constructor). -/
structure RecognizerResult where
  text : Option Str := none
  altered_text : Option Str := none
  intents : Option (List (Str × IntentScore)) := none
  entities : Option EMap := none
  properties : EMap := []

/-- Python `==` on `additional_properties` dicts. -/
def AddProps.beq (a b : AddProps) : Bool :=
  a.role == b.role
    && (match a.resolution, b.resolution with
        | none, none => true
        | some x, some y => JsonVal.beq x y
        | _, _ => false)
    && a.score == b.score

/-- Python `==` on entities: the msrest SDK model compares all attributes
by value. -/
def EntityModel.beq (a b : EntityModel) : Bool :=
  a.type == b.type && a.entity == b.entity
    && a.start_index == b.start_index && a.end_index == b.end_index
    && (match a.additional_properties, b.additional_properties with
        | none, none => true
        | some x, some y => AddProps.beq x y
        | _, _ => false)

/-- Python `e in l` on entity lists (value equality, per `EntityModel.beq`). -/
def pyIn (e : EntityModel) (l : List EntityModel) : Bool :=
  l.any (fun x => EntityModel.beq e x)

/-! ## luis_util.py -/

/-- Replace every occurrence of one character (Python `str.replace` with a
one-character pattern). -/
def replaceChar (a b : Char) (s : Str) : Str :=
  s.map (fun c => if c = a then b else c)

/-- `LuisUtil.normalized_intent`: `intent.replace(".", "_").replace(" ", "_")`. -/
def normalized_intent (intent : Str) : Str :=
  replaceChar ' ' '_' (replaceChar '.' '_' intent)

/-- `type.split(":")[-1]`: the suffix after the last colon. -/
def afterLastColon (s : Str) : Str :=
  s.foldl (fun acc c => if c = ':' then [] else acc ++ [c]) []

/-- Python `str.isspace` (ASCII whitespace subset). -/
def isSpaceStr (s : Str) : Bool :=
  !s.isEmpty && s.all (fun c => wsChars.contains c)

/-- `LuisUtil.extract_normalized_entity_name`. -/
def extract_normalized_entity_name (e : EntityModel) : Str :=
  let type1 := afterLastColon e.type
  let type2 := if "builtin.datetimeV2.".toList.isPrefixOf type1 then "datetime".toList else type1
  let type3 := if "builtin.currency".toList.isPrefixOf type2 then "money".toList else type2
  let type4 := if "builtin.".toList.isPrefixOf type3 then type3.drop 8 else type3
  let role := match e.additional_properties with
    | some p => p.role.getD []
    | none => []
  let type5 := if !role.isEmpty && !isSpaceStr role then role else type4
  replaceChar ' ' '_' (replaceChar '.' '_' type5)

/-- `LuisUtil.number`: `int(str(value))`, falling back to `float` on
`ValueError`; `None` passes through; a second `ValueError` escapes. -/
def number (value : JsonVal) : Except PyError JsonVal :=
  match value with
  | .null => .ok .null
  | v =>
    match parseInt (pyStr v) with
    | some i => .ok (.int i)
    | none =>
      match parseFloat (pyStr v) with
      | some q => .ok (.rat q)
      | none => .error .valueError

/-- `list(OrderedDict.fromkeys(xs))`: deduplicate, keeping the first
occurrence of each value in order. -/
def firstUniques (xs : List JsonVal) : List JsonVal :=
  xs.foldl (fun acc t => if acc.any (fun u => JsonVal.beq t u) then acc else acc ++ [t]) []

/-- `[val["timex"] for val in resolution_values]` (left to right, first
error propagates). -/
def timexList : List JsonVal → Except PyError (List JsonVal)
  | [] => .ok []
  | v :: vs =>
    match getItem v "timex".toList with
    | .error err => .error err
    | .ok t =>
      match timexList vs with
      | .error err => .error err
      | .ok ts => .ok (t :: ts)

/-- `LuisUtil.extract_entity_value`. -/
def extract_entity_value (e : EntityModel) : Except PyError JsonVal :=
  match e.additional_properties with
  | none => .ok (.str e.entity)
  | some props =>
    match props.resolution with
    | none => .ok (.str e.entity)
    | some resolution =>
      if "builtin.datetime.".toList.isPrefixOf e.type then .ok resolution
      else if "builtin.datetimeV2.".toList.isPrefixOf e.type then
        match getItem resolution "values".toList with
        | .error err => .error err
        | .ok vals =>
          if !pyTruthy vals then .ok resolution
          else
            match vals with
            | .list (v0 :: rest) =>
              (match getItem v0 "type".toList, timexList (v0 :: rest) with
               | .ok vt, .ok ts =>
                 .ok (.obj [("type".toList, vt), ("timex".toList, .list (firstUniques ts))])
               | .error err, _ => .error err
               | _, .error err => .error err)
            | _ => .error .typeError
      else if e.type = "builtin.number".toList ∨ e.type = "builtin.ordinal".toList then
        match getItem resolution "value".toList with
        | .ok v => number v
        | .error err => .error err
      else if e.type = "builtin.percentage".toList then
        match getItem resolution "value".toList with
        | .ok v =>
          let sv := pyStr v
          let sv := if sv.getLast? = some '%' then sv.dropLast else sv
          number (.str sv)
        | .error err => .error err
      else if e.type = "builtin.age".toList ∨ e.type = "builtin.dimension".toList
          ∨ e.type = "builtin.currency".toList ∨ e.type = "builtin.temperature".toList then
        -- Source line 133 reads `str(resolution.unit)`: attribute access on
        -- `resolution`, which everywhere else in this function is subscripted
        -- as a dict (`resolution["value"]`, `resolution.get(...)`). A dict has
        -- no `unit` attribute, so reaching this branch raises AttributeError.
        .error .attributeError
      else
        match resolution with
        | .obj fs =>
          let a := (getVal fs "value".toList).getD .null
          let b := (getVal fs "values".toList).getD .null
          .ok (if pyTruthy a then a else b)
        | _ => .error .attributeError

/-- `LuisUtil.extract_entity_metadata`. -/
def extract_entity_metadata (e : EntityModel) : Except PyError JsonVal :=
  let base : EMap := [("startIndex".toList, .int e.start_index),
                      ("endIndex".toList, .int (e.end_index + 1)),
                      ("text".toList, .str e.entity),
                      ("type".toList, .str e.type)]
  match e.additional_properties with
  | none => .ok (.obj base)
  | some props =>
    let withScore := base ++ (match props.score with
      | some s => [("score".toList, .rat s)]
      | none => [])
    match props.resolution with
    | none => .ok (.obj withScore)
    | some (.obj fs) =>
      .ok (.obj (withScore ++ (match getVal fs "subtype".toList with
        | some .null => []
        | some sv => [("subtype".toList, sv)]
        | none => [])))
    | some _ => .error .attributeError  -- `resolution.get` on a non-dict

/-- `LuisUtil.add_property`: append under an existing key, else insert a
singleton list. A non-list value under the key makes the source's
`obj[key].append` raise. -/
def add_property (obj : EMap) (key : Str) (value : JsonVal) : Except PyError EMap :=
  match getVal obj key with
  | some (.list xs) => .ok (setVal obj key (.list (xs ++ [value])))
  | some _ => .error .attributeError
  | none => .ok (obj ++ [(key, .list [value])])

/-- `LuisUtil.composite_contains_entity`. -/
def composite_contains_entity (composite_entity_metadata e : EntityModel) : Bool :=
  e.start_index ≥ composite_entity_metadata.start_index
    && e.end_index ≤ composite_entity_metadata.end_index

/-- The reserved metadata key `LuisUtil._metadata_key`. -/
def instKey : Str := "$instance".toList

/-- `add_property(target[_metadata_key], key, value)`: update the nested
verbose-metadata dict stored under the reserved key. -/
def addToInstance (m : EMap) (key : Str) (v : JsonVal) : Except PyError EMap :=
  match getVal m instKey with
  | some (.obj sub) =>
    match add_property sub key v with
    | .ok sub' => .ok (setVal m instKey (.obj sub'))
    | .error err => .error err
  | some _ => .error .attributeError
  | none => .error .keyError

/-- Inner loop of `populate_composite_entity_model`: scan the flat entity
list for members of one expected child type `c`, threading the covered
set and the children mapping. -/
def innerLoop (c : Str) (p : EntityModel) (verbose : Bool) :
    List EntityModel → List EntityModel → EMap → Except PyError (List EntityModel × EMap)
  | [], cov, ch => .ok (cov, ch)
  | e :: rest, cov, ch =>
    if pyIn e cov then innerLoop c p verbose rest cov ch
    else if c != e.type || !composite_contains_entity p e then
      innerLoop c p verbose rest cov ch
    else
      match extract_entity_value e with
      | .error err => .error err
      | .ok v =>
        match add_property ch (extract_normalized_entity_name e) v with
        | .error err => .error err
        | .ok ch1 =>
          if verbose then
            match extract_entity_metadata e with
            | .error err => .error err
            | .ok md =>
              match addToInstance ch1 (extract_normalized_entity_name e) md with
              | .error err => .error err
              | .ok ch2 => innerLoop c p verbose rest (cov ++ [e]) ch2
          else innerLoop c p verbose rest (cov ++ [e]) ch1

/-- Outer loop of `populate_composite_entity_model` over the expected
child-type descriptors. -/
def childLoop (p : EntityModel) (entities : List EntityModel) (verbose : Bool) :
    List CompositeChildModel → List EntityModel → EMap → Except PyError (List EntityModel × EMap)
  | [], cov, ch => .ok (cov, ch)
  | c :: cs, cov, ch =>
    match innerLoop c.type p verbose entities cov ch with
    | .error err => .error err
    | .ok (cov', ch') => childLoop p entities verbose cs cov' ch'

/-- `LuisUtil.populate_composite_entity_model`: returns the updated output
mapping together with the reduced working entity list. -/
def populate_composite_entity_model (ce : CompositeEntityModel) (entities : List EntityModel)
    (acc : EMap) (verbose : Bool) : Except PyError (EMap × List EntityModel) :=
  let children0 : EMap := if verbose then [(instKey, .obj [])] else []
  match entities.find? (fun e => e.type == ce.parent_type && e.entity == ce.value) with
  | none => .ok (acc, entities)
  | some p =>
    match (if verbose then extract_entity_metadata p else .ok (.obj [])) with
    | .error err => .error err
    | .ok childrenMeta =>
      match childLoop p entities verbose ce.children [] children0 with
      | .error err => .error err
      | .ok (covered, children) =>
        match add_property acc (extract_normalized_entity_name p) (.obj children) with
        | .error err => .error err
        | .ok acc1 =>
          match (if verbose then addToInstance acc1 (extract_normalized_entity_name p) childrenMeta
                 else .ok acc1) with
          | .error err => .error err
          | .ok acc2 => .ok (acc2, entities.filter (fun e => !(pyIn e covered)))

/-- Final flat pass of `extract_entities_and_metadata`: fold the remaining
entities into the mapping, skipping those whose type is a composite
parent type. -/
def flatPass (parents : List Str) (verbose : Bool) :
    List EntityModel → EMap → Except PyError EMap
  | [], acc => .ok acc
  | e :: rest, acc =>
    if parents.contains e.type then flatPass parents verbose rest acc
    else
      match extract_entity_value e with
      | .error err => .error err
      | .ok v =>
        match add_property acc (extract_normalized_entity_name e) v with
        | .error err => .error err
        | .ok acc1 =>
          if verbose then
            match extract_entity_metadata e with
            | .error err => .error err
            | .ok md =>
              match addToInstance acc1 (extract_normalized_entity_name e) md with
              | .error err => .error err
              | .ok acc2 => flatPass parents verbose rest acc2
          else flatPass parents verbose rest acc1

/-- The composite-resolution loop of `extract_entities_and_metadata`,
threading the shrinking working list through each descriptor. -/
def threadComposites (verbose : Bool) :
    List CompositeEntityModel → List EntityModel → EMap → Except PyError (EMap × List EntityModel)
  | [], entities, acc => .ok (acc, entities)
  | ce :: ces, entities, acc =>
    match populate_composite_entity_model ce entities acc verbose with
    | .error err => .error err
    | .ok (acc', entities') => threadComposites verbose ces entities' acc'

/-- `LuisUtil.extract_entities_and_metadata`. -/
def extract_entities_and_metadata (entities : List EntityModel)
    (composite_entities : List CompositeEntityModel) (verbose : Bool) : Except PyError EMap :=
  let acc0 : EMap := if verbose then [(instKey, .obj [])] else []
  match composite_entities with
  | [] => flatPass [] verbose entities acc0
  | ce :: ces =>
    let parents := (ce :: ces).map (fun c => c.parent_type)
    match threadComposites verbose (ce :: ces) entities acc0 with
    | .error err => .error err
    | .ok (acc1, remaining) => flatPass parents verbose remaining acc1

/-! ## recognizer_result.py and get_intents -/

/-- Ordered-dict insertion as performed by a Python dict comprehension: a
repeated key keeps its original position and takes the new value. -/
def dictInsert {α : Type} (m : List (Str × α)) (k : Str) (v : α) : List (Str × α) :=
  if m.any (fun p => p.1 = k) then m.map (fun p => if p.1 = k then (p.1, v) else p)
  else m ++ [(k, v)]

/-- `LuisUtil.get_intents`: map the intent list through
`normalized_intent`, or fall back to the single top-scoring intent when
the list is `None` or empty. -/
def get_intents (lr : LuisResultModel) : Except PyError (List (Str × IntentScore)) :=
  match lr.intents with
  | some (i :: rest) =>
    .ok ((i :: rest).foldl
      (fun m j => dictInsert m (normalized_intent j.intent) ⟨j.score.getD 0⟩) [])
  | _ =>
    match lr.top_scoring_intent with
    | some t => .ok [(normalized_intent t.intent, ⟨t.score.getD 0⟩)]
    | none => .error .attributeError

/-- One step of the `get_top_scoring_intent` scan: replace the running
best only on a strictly greater score. -/
def topIntentStep (t : Str × ℚ) (p : Str × IntentScore) : Str × ℚ :=
  if p.2.score > t.2 then (p.1, p.2.score) else t

/-- `RecognizerResult.get_top_scoring_intent`: `TypeError` when the intent
mapping is `None`, else a scan from the sentinel `("", 0.0)`. -/
def get_top_scoring_intent (r : RecognizerResult) : Except PyError (Str × ℚ) :=
  match r.intents with
  | none => .error .typeError
  | some l => .ok (l.foldl topIntentStep ([], 0))

/-! ## Spec-side definitions used by the claims -/

/-- The claim's normalization pipeline taken literally, with the role
substitution as step (2), before the `builtin` collapses (steps 3-5). -/
def claimOrderNormalizedName (e : EntityModel) : Str :=
  let trailing := afterLastColon e.type
  let role := match e.additional_properties with
    | some props => props.role.getD []
    | none => []
  let afterRole := if role ≠ [] ∧ ¬ (isSpaceStr role = true) then role else trailing
  let collapsed1 :=
    if "builtin.datetimeV2.".toList.isPrefixOf afterRole then "datetime".toList else afterRole
  let collapsed2 :=
    if "builtin.currency".toList.isPrefixOf collapsed1 then "money".toList else collapsed1
  let stripped :=
    if "builtin.".toList.isPrefixOf collapsed2 then collapsed2.drop 8
    else collapsed2
  stripped.map (fun c => if c = '.' ∨ c = ' ' then '_' else c)

/-- The claim's normalization pipeline with the role substitution moved
after the `builtin` collapses (step order 1,3,4,5,2,6), which is the order
the source applies. -/
def amendedNormalizedName (e : EntityModel) : Str :=
  let trailing := afterLastColon e.type
  let collapsed1 :=
    if "builtin.datetimeV2.".toList.isPrefixOf trailing then "datetime".toList else trailing
  let collapsed2 :=
    if "builtin.currency".toList.isPrefixOf collapsed1 then "money".toList else collapsed1
  let stripped :=
    if "builtin.".toList.isPrefixOf collapsed2 then collapsed2.drop 8
    else collapsed2
  let role := match e.additional_properties with
    | some props => props.role.getD []
    | none => []
  let replaced := if role ≠ [] ∧ ¬ (isSpaceStr role = true) then role else stripped
  replaced.map (fun c => if c = '.' ∨ c = ' ' then '_' else c)

/-- An entity carrying only a type: how a bare string is fed back into the
name normalizer. -/
def plainEntity (s : Str) : EntityModel :=
  { type := s, entity := [], start_index := 0, end_index := 0, additional_properties := none }

/-- The keys of an ordered-dict build, in first-occurrence order. -/
def distinctKeys (ks : List Str) : List Str :=
  ks.foldl (fun acc k => if k ∈ acc then acc else acc ++ [k]) []

/-- Extract the canonical values of a list of entities, left to right,
propagating the first extraction error. -/
def extractAll : List EntityModel → Except PyError (List JsonVal)
  | [] => .ok []
  | e :: es =>
    match extract_entity_value e with
    | .error err => .error err
    | .ok v =>
      match extractAll es with
      | .error err => .error err
      | .ok vs => .ok (v :: vs)

/-- A flat entity is an eligible member of a composite with parent entity
`p`: its type equals one of the expected child types and its span is
contained in the parent's span. -/
def eligibleChild (ce : CompositeEntityModel) (p e : EntityModel) : Bool :=
  ce.children.any (fun c => c.type == e.type) && composite_contains_entity p e

/-! ## Concrete fixtures -/

/-- The spec's unit-bearing resolution `{value:"72", unit:"Fahrenheit"}`. -/
def tempRes : JsonVal :=
  .obj [("value".toList, .str "72".toList), ("unit".toList, .str "Fahrenheit".toList)]

/-- The spec's `builtin.temperature` example entity. -/
def tempEntity : EntityModel :=
  { type := "builtin.temperature".toList, entity := "72 Fahrenheit".toList,
    start_index := 0, end_index := 12,
    additional_properties := some { role := none, resolution := some tempRes, score := none } }

/-- An entity whose role itself starts with `builtin.currency`. -/
def roleEntity : EntityModel :=
  { type := "t".toList, entity := "x".toList, start_index := 0, end_index := 0,
    additional_properties :=
      some { role := some "builtin.currency".toList, resolution := none, score := none } }

/-- An entity whose role contains a colon. -/
def colonRoleEntity : EntityModel :=
  { type := "t".toList, entity := "x".toList, start_index := 0, end_index := 0,
    additional_properties :=
      some { role := some "a:b".toList, resolution := none, score := none } }

/-- A `builtin.datetimeV2.date` entity with no resolution. -/
def dtEntity : EntityModel :=
  { type := "builtin.datetimeV2.date".toList, entity := "x".toList,
    start_index := 0, end_index := 0, additional_properties := none }

/-- The spec's composite example: parent `roomBooking` spanning [0,20). -/
def roomParent : EntityModel :=
  { type := "roomBooking".toList, entity := "book room in london".toList,
    start_index := 0, end_index := 19, additional_properties := none }

/-- A `city` entity inside the parent's span. -/
def cityIn : EntityModel :=
  { type := "city".toList, entity := "rome".toList, start_index := 2, end_index := 5,
    additional_properties := none }

/-- A `city` entity outside the parent's span. -/
def cityOut : EntityModel :=
  { type := "city".toList, entity := "oslo".toList, start_index := 30, end_index := 33,
    additional_properties := none }

/-- The spec's composite descriptor with one `city` child type. -/
def roomComposite : CompositeEntityModel :=
  { parent_type := "roomBooking".toList, value := "book room in london".toList,
    children := [{ type := "city".toList }] }

/-- An entity whose type is a composite parent type but whose text matches
no descriptor. -/
def orphan : EntityModel :=
  { type := "P".toList, entity := "y".toList, start_index := 0, end_index := 1,
    additional_properties := none }

/-- A composite descriptor whose `(parentType, value)` matches no entity. -/
def badComposite : CompositeEntityModel :=
  { parent_type := "P".toList, value := "x".toList, children := [] }

/-- An intent list with two names normalizing to the same key. -/
def collidingIntents : LuisResultModel :=
  { intents := some [⟨"a.b".toList, some (mkRat 3 10)⟩, ⟨"a b".toList, some (mkRat 7 10)⟩],
    top_scoring_intent := none }

/-! ## Lemmas about the string helpers -/

theorem replaceChar_fusion (s : Str) :
    replaceChar ' ' '_' (replaceChar '.' '_' s) =
      s.map (fun c => if c = '.' ∨ c = ' ' then '_' else c) := by
  simp only [replaceChar, List.map_map]
  apply List.map_congr_left
  intro c _
  by_cases h1 : c = '.'
  · subst h1; simp
  · by_cases h2 : c = ' '
    · subst h2; simp
    · simp [Function.comp, h1, h2]

theorem not_mem_replaceChar_self (a b : Char) (hab : b ≠ a) (s : Str) :
    a ∉ replaceChar a b s := by
  intro h
  simp only [replaceChar, List.mem_map] at h
  obtain ⟨c, _, hc⟩ := h
  by_cases hca : c = a
  · simp [hca] at hc; exact hab hc
  · simp [hca] at hc

theorem not_mem_replaceChar_other (a b c : Char) (s : Str) (hc : c ∉ s) (hbc : b ≠ c) :
    c ∉ replaceChar a b s := by
  intro h
  simp only [replaceChar, List.mem_map] at h
  obtain ⟨x, hx, hxc⟩ := h
  by_cases hxa : x = a
  · simp [hxa] at hxc; exact hbc hxc
  · simp [hxa] at hxc; exact hc (hxc ▸ hx)

theorem afterLastColon_no_colon (s : Str) (h : ':' ∉ s) : afterLastColon s = s := by
  have general : ∀ (t : Str) (acc : Str), ':' ∉ t →
      t.foldl (fun acc c => if c = ':' then [] else acc ++ [c]) acc = acc ++ t := by
    intro t
    induction t with
    | nil => intro acc _; simp
    | cons c t ih =>
      intro acc hmem
      have hc : c ≠ ':' := fun hh => hmem (hh ▸ List.mem_cons_self c t)
      have ht : ':' ∉ t := fun hh => hmem (List.mem_cons_of_mem c hh)
      simp only [List.foldl_cons, if_neg hc]
      rw [ih (acc ++ [c]) ht]
      simp
  simpa using general s [] h

theorem isPrefixOf_mem {l s : Str} (h : l.isPrefixOf s = true) {c : Char} (hc : c ∈ l) :
    c ∈ s :=
  (List.isPrefixOf_iff_prefix.mp h).subset hc

theorem replaceChar_id (a b : Char) (s : Str) (h : a ∉ s) : replaceChar a b s = s := by
  simp only [replaceChar]
  conv_rhs => rw [← List.map_id s]
  apply List.map_congr_left
  intro c hcs
  have hca : c ≠ a := fun hh => h (hh ▸ hcs)
  simp [hca]

/-! ## C1: the unit-bearing branch of extract_entity_value -/

/-- C1: at the spec's `builtin.temperature` example (resolution
`{value:"72", unit:"Fahrenheit"}`) the source raises `AttributeError`
instead of producing `{number:72, units:"Fahrenheit"}`: line 133 reads
`resolution.unit` as an attribute of a plain dict. -/
theorem c1_unit_branch_raises :
    extract_entity_value tempEntity = .error .attributeError
    ∧ (Except.error .attributeError : Except PyError JsonVal) ≠
        .ok (.obj [("number".toList, .int 72), ("units".toList, .str "Fahrenheit".toList)]) :=
  ⟨rfl, fun h => nomatch h⟩

/-! ## C2: order of the normalization steps -/

/-- C2 counterexample: for an entity whose role is the string
`builtin.currency`, the source yields `builtin_currency` while the
claim's step order (role substitution before the collapses) yields
`money`. -/
theorem c2_counterexample :
    extract_normalized_entity_name roleEntity = "builtin_currency".toList
    ∧ claimOrderNormalizedName roleEntity = "money".toList
    ∧ extract_normalized_entity_name roleEntity ≠ claimOrderNormalizedName roleEntity :=
  ⟨by decide, by decide, by decide⟩

/-- C2 (amended): the normalization equals the claim's six steps with the
role substitution applied after the `builtin` collapses (order
1,3,4,5,2,6). -/
theorem c2_role_after_collapses (e : EntityModel) :
    extract_normalized_entity_name e = amendedNormalizedName e := by
  have hrole : ∀ (role stripped : Str),
      (if !role.isEmpty && !isSpaceStr role then role else stripped) =
      (if role ≠ [] ∧ ¬ (isSpaceStr role = true) then role else stripped) := by
    intro role stripped
    by_cases h1 : role = []
    · subst h1; simp
    · by_cases h2 : isSpaceStr role = true
      · simp [h1, h2]
      · simp [h1, h2]
  obtain ⟨t, tx, si, ei, props⟩ := e
  cases props with
  | none =>
    simp only [extract_normalized_entity_name, amendedNormalizedName]
    rw [hrole, replaceChar_fusion]
  | some p =>
    simp only [extract_normalized_entity_name, amendedNormalizedName]
    rw [hrole, replaceChar_fusion]

/-! ## C9: idempotence of the name normalizer -/

theorem norm_no_dot (e : EntityModel) : '.' ∉ extract_normalized_entity_name e := by
  simp only [extract_normalized_entity_name]
  exact not_mem_replaceChar_other ' ' '_' '.' _
    (not_mem_replaceChar_self '.' '_' (by decide) _) (by decide)

theorem norm_no_space (e : EntityModel) : ' ' ∉ extract_normalized_entity_name e := by
  simp only [extract_normalized_entity_name]
  exact not_mem_replaceChar_self ' ' '_' (by decide) _

theorem normalize_plain_fixed (s : Str) (hc : ':' ∉ s) (hd : '.' ∉ s) (hsp : ' ' ∉ s) :
    extract_normalized_entity_name (plainEntity s) = s := by
  have h1 : ¬ ("builtin.datetimeV2.".toList.isPrefixOf s = true) :=
    fun hp => hd (isPrefixOf_mem hp (by decide))
  have h2 : ¬ ("builtin.currency".toList.isPrefixOf s = true) :=
    fun hp => hd (isPrefixOf_mem hp (by decide))
  have h3 : ¬ ("builtin.".toList.isPrefixOf s = true) :=
    fun hp => hd (isPrefixOf_mem hp (by decide))
  simp only [extract_normalized_entity_name, plainEntity]
  rw [afterLastColon_no_colon s hc, if_neg h1, if_neg h2, if_neg h3]
  simp only [List.isEmpty_nil, Bool.not_true, Bool.false_and, Bool.false_eq_true, if_false]
  rw [replaceChar_id '.' '_' s hd, replaceChar_id ' ' '_' s hsp]

/-- C9 counterexample: the output `a:b` (from an entity whose role
contains a colon) is not a fixed point of the normalizer, which strips
everything up to the last colon on re-entry. -/
theorem c9_counterexample :
    extract_normalized_entity_name colonRoleEntity = "a:b".toList
    ∧ extract_normalized_entity_name (plainEntity (extract_normalized_entity_name colonRoleEntity))
        ≠ extract_normalized_entity_name colonRoleEntity :=
  ⟨by decide, by decide⟩

/-- C9 (amended): every normalizer output containing no colon (in
particular every output not produced by a role containing a colon) is a
fixed point of the normalizer. -/
theorem c9_idempotent_no_colon (e : EntityModel)
    (hc : ':' ∉ extract_normalized_entity_name e) :
    extract_normalized_entity_name (plainEntity (extract_normalized_entity_name e))
      = extract_normalized_entity_name e :=
  normalize_plain_fixed _ hc (norm_no_dot e) (norm_no_space e)

theorem c9_witness :
    extract_normalized_entity_name (plainEntity (extract_normalized_entity_name dtEntity))
      = extract_normalized_entity_name dtEntity :=
  c9_idempotent_no_colon dtEntity (by decide)

/-! ## C7: missing composite parent -/

/-- C7: a composite descriptor whose `(parentType, value)` matches no flat
entity is skipped: no error, output mapping untouched, working list
returned unchanged. -/
theorem c7_missing_parent (ce : CompositeEntityModel) (entities : List EntityModel)
    (acc : EMap) (verbose : Bool)
    (h : entities.find? (fun e => e.type == ce.parent_type && e.entity == ce.value) = none) :
    populate_composite_entity_model ce entities acc verbose = .ok (acc, entities) := by
  simp only [populate_composite_entity_model, h]

theorem c7_witness :
    populate_composite_entity_model badComposite [orphan] [("k".toList, .list [.null])] true
      = .ok ([("k".toList, .list [.null])], [orphan]) :=
  c7_missing_parent badComposite [orphan] [("k".toList, .list [.null])] true rfl

/-! ## C8: the numeric coercer -/

/-- C8: `number` passes `None` through, tries an integer parse of the
stringified value first, falls back to a floating parse, and propagates a
`ValueError` when both parses fail. -/
theorem c8_number_coercion :
    (number .null = .ok .null)
    ∧ (∀ (v : JsonVal) (i : Int), v ≠ .null → parseInt (pyStr v) = some i →
        number v = .ok (.int i))
    ∧ (∀ (v : JsonVal) (q : ℚ), v ≠ .null → parseInt (pyStr v) = none →
        parseFloat (pyStr v) = some q → number v = .ok (.rat q))
    ∧ (∀ v : JsonVal, v ≠ .null → parseInt (pyStr v) = none → parseFloat (pyStr v) = none →
        number v = .error .valueError) := by
  refine ⟨rfl, ?_, ?_, ?_⟩
  · intro v i hv hp
    cases v <;> simp_all [number]
  · intro v q hv hp hf
    cases v <;> simp_all [number]
  · intro v hv hp hf
    cases v <;> simp_all [number]

theorem c8_witness :
    number .null = .ok .null
    ∧ number (.str "72".toList) = .ok (.int 72)
    ∧ number (.str "2.5".toList) = .ok (.rat (mkRat 5 2))
    ∧ number (.str "x7".toList) = .error .valueError :=
  ⟨c8_number_coercion.1,
   c8_number_coercion.2.1 _ 72 (fun h => nomatch h) (by decide),
   c8_number_coercion.2.2.1 _ (mkRat 5 2) (fun h => nomatch h) (by decide) (by decide),
   c8_number_coercion.2.2.2 _ (fun h => nomatch h) (by decide) (by decide)⟩

/-! ## C6: top-scoring-intent query -/

theorem foldl_top_stay (l : List (Str × IntentScore)) (t : Str × ℚ)
    (h : ∀ p ∈ l, p.2.score ≤ t.2) : l.foldl topIntentStep t = t := by
  induction l with
  | nil => rfl
  | cons p l ih =>
    have hp : ¬ p.2.score > t.2 := not_lt.mpr (h p (List.mem_cons_self p l))
    simp only [List.foldl_cons, topIntentStep, if_neg hp]
    exact ih (fun q hq => h q (List.mem_cons_of_mem p hq))

theorem foldl_top_lt (l : List (Str × IntentScore)) (t : Str × ℚ) (s : ℚ)
    (h : ∀ p ∈ l, p.2.score < s) (ht : t.2 < s) : (l.foldl topIntentStep t).2 < s := by
  induction l generalizing t with
  | nil => exact ht
  | cons p l ih =>
    simp only [List.foldl_cons, topIntentStep]
    by_cases hp : p.2.score > t.2
    · rw [if_pos hp]
      exact ih _ (fun q hq => h q (List.mem_cons_of_mem p hq)) (h p (List.mem_cons_self p l))
    · rw [if_neg hp]
      exact ih _ (fun q hq => h q (List.mem_cons_of_mem p hq)) ht

/-- C6: `get_top_scoring_intent` raises exactly when the intent mapping is
unset; an empty mapping yields the sentinel `("", 0.0)`; the sentinel also
survives when no score exceeds 0; and the first entry attaining the
maximum score (strictly above all earlier entries, at least all later
ones) is returned, so exact ties go to the first-encountered intent. -/
theorem c6_top_scoring_intent :
    (∀ r : RecognizerResult, get_top_scoring_intent r = .error .typeError ↔ r.intents = none)
    ∧ (∀ r : RecognizerResult, r.intents = some [] → get_top_scoring_intent r = .ok ([], 0))
    ∧ (∀ (r : RecognizerResult) (l : List (Str × IntentScore)), r.intents = some l →
        (∀ p ∈ l, p.2.score ≤ 0) → get_top_scoring_intent r = .ok ([], 0))
    ∧ (∀ (r : RecognizerResult) (l1 l2 : List (Str × IntentScore)) (p : Str × IntentScore),
        r.intents = some (l1 ++ p :: l2) → 0 < p.2.score →
        (∀ q ∈ l1, q.2.score < p.2.score) → (∀ q ∈ l2, q.2.score ≤ p.2.score) →
        get_top_scoring_intent r = .ok (p.1, p.2.score)) := by
  refine ⟨?_, ?_, ?_, ?_⟩
  · intro r
    cases h : r.intents with
    | none => simp [get_top_scoring_intent, h]
    | some l => simp [get_top_scoring_intent, h]
  · intro r h
    simp [get_top_scoring_intent, h]
  · intro r l h hle
    simp only [get_top_scoring_intent, h]
    rw [foldl_top_stay l ([], 0) hle]
  · intro r l1 l2 p h hpos h1 h2
    simp only [get_top_scoring_intent, h]
    rw [List.foldl_append]
    have hacc : (l1.foldl topIntentStep ([], 0)).2 < p.2.score :=
      foldl_top_lt l1 ([], 0) p.2.score h1 hpos
    simp only [List.foldl_cons, topIntentStep, if_pos hacc]
    rw [foldl_top_stay l2 (p.1, p.2.score) h2]

theorem c6_witness :
    get_top_scoring_intent { intents := none } = .error .typeError
    ∧ get_top_scoring_intent { intents := some [] } = .ok ([], 0)
    ∧ get_top_scoring_intent
        { intents := some [("a".toList, ⟨mkRat 1 2⟩), ("b".toList, ⟨mkRat 1 2⟩)] }
        = .ok ("a".toList, mkRat 1 2) := by
  refine ⟨(c6_top_scoring_intent.1 _).mpr rfl, c6_top_scoring_intent.2.1 _ rfl, ?_⟩
  have h := c6_top_scoring_intent.2.2.2
    ⟨none, none, some [("a".toList, ⟨mkRat 1 2⟩), ("b".toList, ⟨mkRat 1 2⟩)], none, []⟩
    [] [("b".toList, ⟨mkRat 1 2⟩)] ("a".toList, ⟨mkRat 1 2⟩) rfl (by decide)
    (by intro q hq; exact absurd hq (List.not_mem_nil q))
    (by intro q hq; rw [List.mem_singleton] at hq; subst hq; exact le_refl _)
  exact h

/-! ## Ordered-dict lemmas -/

theorem getVal_append {α : Type} (m l : List (Str × α)) (k : Str) :
    getVal (m ++ l) k =
      match getVal m k with
      | some v => some v
      | none => getVal l k := by
  induction m with
  | nil => rfl
  | cons p m ih =>
    by_cases h : p.1 = k
    · simp only [List.cons_append, getVal, if_pos h]
    · simp only [List.cons_append, getVal, if_neg h]
      exact ih

theorem getVal_setVal_same {α : Type} (m : List (Str × α)) (k : Str) (v w : α)
    (h : getVal m k = some w) : getVal (setVal m k v) k = some v := by
  induction m with
  | nil => exact absurd h (by simp [getVal])
  | cons p m ih =>
    by_cases hp : p.1 = k
    · simp only [setVal, List.map_cons, if_pos hp, getVal, if_pos hp]
    · simp only [getVal, if_neg hp] at h
      simp only [setVal, List.map_cons, if_neg hp, getVal, if_neg hp]
      exact ih h

theorem getVal_setVal_ne {α : Type} (m : List (Str × α)) (k k' : Str) (v : α)
    (h : k' ≠ k) : getVal (setVal m k v) k' = getVal m k' := by
  induction m with
  | nil => rfl
  | cons p m ih =>
    by_cases hp : p.1 = k
    · have hpk : ¬ p.1 = k' := fun hh => h (hh.symm.trans hp)
      simp only [setVal, List.map_cons, if_pos hp, getVal, if_neg hpk]
      exact ih
    · by_cases hpk : p.1 = k'
      · simp only [setVal, List.map_cons, if_neg hp, getVal, if_pos hpk]
      · simp only [setVal, List.map_cons, if_neg hp, getVal, if_neg hpk]
        exact ih

theorem map_fst_setVal {α : Type} (m : List (Str × α)) (k : Str) (v : α) :
    (setVal m k v).map Prod.fst = m.map Prod.fst := by
  simp only [setVal, List.map_map]
  apply List.map_congr_left
  intro p _
  by_cases h : p.1 = k <;> simp [h]

theorem mem_map_fst_iff {α : Type} (m : List (Str × α)) (k : Str) :
    k ∈ m.map Prod.fst ↔ (getVal m k).isSome = true := by
  induction m with
  | nil => exact Iff.intro (fun h => nomatch h) (fun h => nomatch h)
  | cons p m ih =>
    rw [List.map_cons, List.mem_cons]
    by_cases h : p.1 = k
    · simp only [getVal, if_pos h, Option.isSome_some]
      exact ⟨fun _ => trivial, fun _ => Or.inl h.symm⟩
    · simp only [getVal, if_neg h]
      constructor
      · intro hor
        cases hor with
        | inl hh => exact absurd hh.symm h
        | inr hh => exact ih.mp hh
      · intro hh
        exact Or.inr (ih.mpr hh)

theorem any_key_eq_isSome {α : Type} (m : List (Str × α)) (k : Str) :
    (m.any fun p => p.1 = k) = (getVal m k).isSome := by
  induction m with
  | nil => rfl
  | cons p m ih =>
    by_cases h : p.1 = k
    · simp [getVal, h]
    · simp [getVal, h, ih]

theorem getVal_eq_none_of_any_false {α : Type} (m : List (Str × α)) (k : Str)
    (hany : (m.any fun p => p.1 = k) = false) : getVal m k = none := by
  have hs := any_key_eq_isSome m k
  rw [hany] at hs
  cases hv : getVal m k with
  | none => rfl
  | some w => rw [hv] at hs; exact absurd hs.symm (by simp)

theorem getVal_dictInsert_same {α : Type} (m : List (Str × α)) (k : Str) (v : α) :
    getVal (dictInsert m k v) k = some v := by
  unfold dictInsert
  cases hany : (m.any fun p => p.1 = k) with
  | true =>
    rw [if_pos rfl]
    have hs := any_key_eq_isSome m k
    rw [hany] at hs
    cases hv : getVal m k with
    | none => rw [hv] at hs; exact absurd hs.symm (by simp)
    | some w => exact getVal_setVal_same m k v w hv
  | false =>
    rw [if_neg Bool.false_ne_true, getVal_append, getVal_eq_none_of_any_false m k hany]
    simp [getVal]

theorem getVal_dictInsert_ne {α : Type} (m : List (Str × α)) (k k' : Str) (v : α)
    (h : k' ≠ k) : getVal (dictInsert m k v) k' = getVal m k' := by
  unfold dictInsert
  cases hany : (m.any fun p => p.1 = k) with
  | true =>
    rw [if_pos rfl]
    exact getVal_setVal_ne m k k' v h
  | false =>
    rw [if_neg Bool.false_ne_true, getVal_append]
    cases hm : getVal m k' with
    | some w => rfl
    | none =>
      have hkk : ¬ k = k' := fun hh => h hh.symm
      simp only [getVal, if_neg hkk]

theorem map_fst_dictInsert {α : Type} (m : List (Str × α)) (k : Str) (v : α) :
    (dictInsert m k v).map Prod.fst =
      if (getVal m k).isSome then m.map Prod.fst else m.map Prod.fst ++ [k] := by
  unfold dictInsert
  rw [any_key_eq_isSome]
  cases h : (getVal m k).isSome with
  | true =>
    rw [if_pos rfl, if_pos rfl]
    exact map_fst_setVal m k v
  | false =>
    rw [if_neg Bool.false_ne_true, if_neg Bool.false_ne_true, List.map_append]
    rfl

theorem getLast?_cons_eq {α : Type} (a : α) (l : List α) :
    (a :: l).getLast? =
      match l.getLast? with
      | some x => some x
      | none => some a := by
  cases l with
  | nil => rfl
  | cons b t =>
    rw [List.getLast?_cons_cons]
    cases h : (b :: t).getLast? with
    | some x => rfl
    | none => simp at h

/-! ## C10: intent-name collisions in get_intents -/

theorem getVal_intents_foldl (l : List IntentModel) :
    ∀ (m0 : List (Str × IntentScore)) (k : Str),
    getVal (l.foldl
        (fun m j => dictInsert m (normalized_intent j.intent) ⟨j.score.getD 0⟩) m0) k =
      match (l.filter (fun j => decide (normalized_intent j.intent = k))).getLast? with
      | some j => some ⟨j.score.getD 0⟩
      | none => getVal m0 k := by
  induction l with
  | nil => intro m0 k; rfl
  | cons j l ih =>
    intro m0 k
    rw [List.foldl_cons]
    by_cases hk : normalized_intent j.intent = k
    · rw [List.filter_cons_of_pos (by simp [hk]), getLast?_cons_eq, ih]
      cases h : (l.filter (fun j => decide (normalized_intent j.intent = k))).getLast? with
      | some j' => rfl
      | none =>
        rw [← hk]
        exact getVal_dictInsert_same m0 _ _
    · rw [List.filter_cons_of_neg (by simp [hk]), ih]
      cases h : (l.filter (fun j => decide (normalized_intent j.intent = k))).getLast? with
      | some j' => rfl
      | none => exact getVal_dictInsert_ne m0 _ k _ (fun hh => hk hh.symm)

theorem map_fst_intents_foldl (l : List IntentModel) :
    ∀ (m0 : List (Str × IntentScore)),
    (l.foldl
        (fun m j => dictInsert m (normalized_intent j.intent) ⟨j.score.getD 0⟩) m0).map Prod.fst =
      (l.map (fun j => normalized_intent j.intent)).foldl
        (fun acc k => if k ∈ acc then acc else acc ++ [k]) (m0.map Prod.fst) := by
  induction l with
  | nil => intro m0; rfl
  | cons j l ih =>
    intro m0
    rw [List.foldl_cons, List.map_cons, List.foldl_cons, ih]
    congr 1
    rw [map_fst_dictInsert]
    cases h : (getVal m0 (normalized_intent j.intent)).isSome with
    | true =>
      rw [if_pos rfl, if_pos ((mem_map_fst_iff m0 _).mpr h)]
    | false =>
      rw [if_neg Bool.false_ne_true, if_neg (fun hmem => by
        have hh := (mem_map_fst_iff m0 _).mp hmem
        rw [h] at hh
        exact Bool.false_ne_true hh)]

/-- C10: when the provider intent list is non-empty, the resulting mapping
holds, under each normalized name, exactly the score of the last intent in
the list normalizing to that name, and its keys are the distinct
normalized names in first-occurrence order (so colliding intents produce a
single entry and a shorter mapping). -/
theorem c10_intent_collision (lr : LuisResultModel) (l : List IntentModel)
    (m : List (Str × IntentScore)) (hl : lr.intents = some l) (hne : l ≠ [])
    (hok : get_intents lr = .ok m) :
    (∀ k, getVal m k =
      match (l.filter (fun j => decide (normalized_intent j.intent = k))).getLast? with
      | some j => some ⟨j.score.getD 0⟩
      | none => none)
    ∧ m.map Prod.fst = distinctKeys (l.map (fun j => normalized_intent j.intent)) := by
  cases l with
  | nil => exact absurd rfl hne
  | cons i rest =>
    simp only [get_intents, hl, Except.ok.injEq] at hok
    constructor
    · intro k
      rw [← hok, getVal_intents_foldl]
      cases h : ((i :: rest).filter
          (fun j => decide (normalized_intent j.intent = k))).getLast? with
      | some j' => rfl
      | none => rfl
    · rw [← hok, map_fst_intents_foldl]
      rfl

theorem c10_witness :
    get_intents collidingIntents = .ok [("a_b".toList, ⟨mkRat 7 10⟩)]
    ∧ getVal [("a_b".toList, (⟨mkRat 7 10⟩ : IntentScore))] "a_b".toList = some ⟨mkRat 7 10⟩
    ∧ [("a_b".toList, (⟨mkRat 7 10⟩ : IntentScore))].map Prod.fst
        = distinctKeys ["a_b".toList, "a_b".toList] := by
  have h := c10_intent_collision collidingIntents
    [⟨"a.b".toList, some (mkRat 3 10)⟩, ⟨"a b".toList, some (mkRat 7 10)⟩]
    [("a_b".toList, ⟨mkRat 7 10⟩)] rfl (by simp) rfl
  exact ⟨rfl, h.1 "a_b".toList, h.2⟩

/-! ## C4: up-front parent-type exclusion -/

theorem iteTrueEq {α : Sort _} (a b : α) : (if (true = true) then a else b) = a := rfl

theorem iteFalseEq {α : Sort _} (a b : α) : (if (false = true) then a else b) = b := rfl

theorem contains_nil_str (k : Str) : ([] : List Str).contains k = false := rfl

theorem flatPass_filter (parents : List Str) (verbose : Bool) :
    ∀ (l : List EntityModel) (acc : EMap),
    flatPass parents verbose l acc
      = flatPass [] verbose (l.filter (fun e => !(parents.contains e.type))) acc := by
  intro l
  induction l with
  | nil => intro acc; rfl
  | cons e l ih =>
    intro acc
    cases hc : parents.contains e.type with
    | true =>
      rw [List.filter_cons_of_neg (by rw [hc]; decide)]
      simp only [flatPass, hc, iteTrueEq]
      exact ih acc
    | false =>
      rw [List.filter_cons_of_pos (by rw [hc]; decide)]
      cases hv : extract_entity_value e with
      | error err =>
        simp only [flatPass, hc, contains_nil_str, iteFalseEq, hv]
      | ok v =>
        cases ha : add_property acc (extract_normalized_entity_name e) v with
        | error err =>
          simp only [flatPass, hc, contains_nil_str, iteFalseEq, hv, ha]
        | ok acc1 =>
          cases verbose with
          | false =>
            simp only [flatPass, hc, contains_nil_str, iteFalseEq, hv, ha]
            exact ih acc1
          | true =>
            cases hm : extract_entity_metadata e with
            | error err =>
              simp only [flatPass, hc, contains_nil_str, iteFalseEq, iteTrueEq, if_true, hv, ha, hm]
            | ok md =>
              cases hai : addToInstance acc1 (extract_normalized_entity_name e) md with
              | error err =>
                simp only [flatPass, hc, contains_nil_str, iteFalseEq, iteTrueEq, if_true, hv, ha, hm, hai]
              | ok acc2 =>
                simp only [flatPass, hc, contains_nil_str, iteFalseEq, iteTrueEq, if_true, hv, ha, hm, hai]
                exact ih acc2

/-- C4: with a non-empty composite list, the final flat pass of
`extract_entities_and_metadata` is the unfiltered pass over the remaining
entities with every entity whose type is the parent type of any composite
descriptor removed; the exclusion set is computed from all descriptors, so
such entities are omitted even when their descriptor failed to resolve. -/
theorem c4_parent_type_exclusion (entities : List EntityModel)
    (cs : List CompositeEntityModel) (verbose : Bool) (h : cs ≠ []) :
    extract_entities_and_metadata entities cs verbose =
      (match threadComposites verbose cs entities
          (if verbose then [(instKey, .obj [])] else []) with
       | .error err => .error err
       | .ok pr => flatPass [] verbose
           (pr.2.filter (fun e => !((cs.map (fun c => c.parent_type)).contains e.type))) pr.1) := by
  cases cs with
  | nil => exact absurd rfl h
  | cons ce ces =>
    cases ht : threadComposites verbose (ce :: ces) entities
        (if verbose then [(instKey, .obj [])] else []) with
    | error err => simp only [extract_entities_and_metadata, ht]
    | ok pr =>
      obtain ⟨acc1, remaining⟩ := pr
      simp only [extract_entities_and_metadata, ht]
      exact flatPass_filter ((ce :: ces).map (fun c => c.parent_type)) verbose remaining acc1

/-- C4 witness: one composite descriptor that fails to resolve (no entity
matches its `(parentType, value)`), one entity of that parent type: the
entity is omitted from the output even though it was never consumed. -/
theorem c4_witness :
    extract_entities_and_metadata [orphan] [badComposite] false = .ok [] := by
  rw [c4_parent_type_exclusion [orphan] [badComposite] false (by simp)]
  rfl

/-! ## C5: the accumulation combinator -/

theorem add_property_absent (obj : EMap) (k : Str) (v : JsonVal)
    (h : getVal obj k = none) :
    add_property obj k v = .ok (obj ++ [(k, .list [v])]) := by
  simp only [add_property, h]

theorem add_property_present (obj : EMap) (k : Str) (v : JsonVal) (xs : List JsonVal)
    (h : getVal obj k = some (.list xs)) :
    add_property obj k v = .ok (setVal obj k (.list (xs ++ [v]))) := by
  simp only [add_property, h]

theorem getVal_append_singleton_ne {α : Type} (m : List (Str × α)) (k k1 : Str) (w : α)
    (h : ¬ k1 = k) : getVal (m ++ [(k1, w)]) k = getVal m k := by
  rw [getVal_append]
  cases hm : getVal m k with
  | some u => rfl
  | none => simp only [getVal, if_neg h]

theorem flatPass_getVal (k : Str) (l : List EntityModel) :
    ∀ (acc m : EMap) (vs : List JsonVal),
    flatPass [] false l acc = .ok m →
    extractAll (l.filter (fun e => decide (extract_normalized_entity_name e = k))) = .ok vs →
    getVal m k =
      match getVal acc k with
      | some (.list xs) => some (.list (xs ++ vs))
      | some other => some other
      | none =>
        match vs with
        | [] => none
        | _ => some (.list vs) := by
  induction l with
  | nil =>
    intro acc m vs h hvs
    simp only [flatPass] at h
    simp only [List.filter_nil, extractAll] at hvs
    injection h with h
    injection hvs with hvs
    subst h
    subst hvs
    cases hg : getVal acc k with
    | none => rfl
    | some w =>
      cases w with
      | list xs => simp
      | null => rfl
      | str s => rfl
      | int i => rfl
      | rat q => rfl
      | obj fs => rfl
  | cons e l ih =>
    intro acc m vs h hvs
    simp only [flatPass, contains_nil_str, iteFalseEq] at h
    cases hv : extract_entity_value e with
    | error err =>
      simp only [hv] at h
      exact nomatch h
    | ok v =>
      simp only [hv] at h
      cases ha : add_property acc (extract_normalized_entity_name e) v with
      | error err =>
        simp only [ha] at h
        exact nomatch h
      | ok acc1 =>
        simp only [ha, iteFalseEq] at h
        by_cases hk : extract_normalized_entity_name e = k
        · rw [List.filter_cons_of_pos (by simp [hk])] at hvs
          simp only [extractAll, hv] at hvs
          cases hea : extractAll
              (l.filter (fun e => decide (extract_normalized_entity_name e = k))) with
          | error err =>
            simp only [hea] at hvs
            exact nomatch hvs
          | ok vs' =>
            simp only [hea] at hvs
            injection hvs with hvs
            have ihm := ih acc1 m vs' h hea
            cases hg : getVal acc k with
            | none =>
              rw [hk] at ha
              rw [add_property_absent acc k v hg] at ha
              injection ha with ha
              subst ha
              have hacc1 : getVal (acc ++ [(k, JsonVal.list [v])]) k
                  = some (JsonVal.list [v]) := by
                rw [getVal_append, hg]
                simp [getVal]
              rw [hacc1] at ihm
              rw [ihm, ← hvs]
              rfl
            | some w =>
              cases w with
              | list xs =>
                rw [hk] at ha
                rw [add_property_present acc k v xs hg] at ha
                injection ha with ha
                subst ha
                rw [getVal_setVal_same acc k _ _ hg] at ihm
                rw [ihm, ← hvs]
                simp [List.append_assoc]
              | null => rw [hk, add_property, hg] at ha; exact nomatch ha
              | str s => rw [hk, add_property, hg] at ha; exact nomatch ha
              | int i => rw [hk, add_property, hg] at ha; exact nomatch ha
              | rat q => rw [hk, add_property, hg] at ha; exact nomatch ha
              | obj fs => rw [hk, add_property, hg] at ha; exact nomatch ha
        · rw [List.filter_cons_of_neg (by simp [hk])] at hvs
          have ihm := ih acc1 m vs h hvs
          have hacc : getVal acc1 k = getVal acc k := by
            cases hg : getVal acc (extract_normalized_entity_name e) with
            | none =>
              rw [add_property_absent acc _ v hg] at ha
              injection ha with ha
              subst ha
              exact getVal_append_singleton_ne acc k _ _ (fun hh => hk hh)
            | some w =>
              cases w with
              | list xs =>
                rw [add_property_present acc _ v xs hg] at ha
                injection ha with ha
                subst ha
                exact getVal_setVal_ne acc _ k _ (fun hh => hk hh.symm)
              | null => rw [add_property, hg] at ha; exact nomatch ha
              | str s => rw [add_property, hg] at ha; exact nomatch ha
              | int i => rw [add_property, hg] at ha; exact nomatch ha
              | rat q => rw [add_property, hg] at ha; exact nomatch ha
              | obj fs => rw [add_property, hg] at ha; exact nomatch ha
          rw [hacc] at ihm
          exact ihm

/-- C5: the accumulation combinator inserts a singleton list for an absent
key and appends for a present key; consequently, with no composites, the
value mapping holds under each key exactly the list of canonical values of
the entities normalizing to that key, in input order — one value per input
entity, never a bare scalar, and no entry for keys with no entities. -/
theorem c5_accumulation :
    (∀ (obj : EMap) (k : Str) (v : JsonVal), getVal obj k = none →
      add_property obj k v = .ok (obj ++ [(k, .list [v])]))
    ∧ (∀ (obj : EMap) (k : Str) (v : JsonVal) (xs : List JsonVal),
        getVal obj k = some (.list xs) →
        add_property obj k v = .ok (setVal obj k (.list (xs ++ [v]))))
    ∧ (∀ (entities : List EntityModel) (m : EMap) (k : Str) (vs : List JsonVal),
        extract_entities_and_metadata entities [] false = .ok m →
        extractAll (entities.filter
          (fun e => decide (extract_normalized_entity_name e = k))) = .ok vs →
        getVal m k =
          match vs with
          | [] => none
          | _ => some (.list vs)) := by
  refine ⟨add_property_absent, add_property_present, ?_⟩
  intro entities m k vs h hvs
  simp only [extract_entities_and_metadata, iteFalseEq] at h
  have hh := flatPass_getVal k entities [] m vs h hvs
  simpa using hh

theorem c5_witness :
    add_property [] "k".toList .null = .ok [("k".toList, .list [.null])]
    ∧ add_property [("k".toList, .list [.null])] "k".toList (.int 1)
        = .ok [("k".toList, .list [.null, .int 1])]
    ∧ getVal ([("city".toList, .list [.str "rome".toList, .str "oslo".toList]),
        ("datetime".toList, .list [.str "x".toList])] : EMap) "city".toList
        = some (.list [.str "rome".toList, .str "oslo".toList]) := by
  refine ⟨c5_accumulation.1 [] "k".toList JsonVal.null rfl, ?_, ?_⟩
  · exact c5_accumulation.2.1 [("k".toList, JsonVal.list [JsonVal.null])] "k".toList
      (JsonVal.int 1) [JsonVal.null] rfl
  · exact c5_accumulation.2.2 [cityIn, cityOut, dtEntity]
      [("city".toList, JsonVal.list [JsonVal.str "rome".toList, JsonVal.str "oslo".toList]),
       ("datetime".toList, JsonVal.list [JsonVal.str "x".toList])]
      "city".toList [JsonVal.str "rome".toList, JsonVal.str "oslo".toList] rfl rfl

/-! ## C3: value equality and the covered set -/

mutual
theorem jsonValBeqRefl : ∀ (a : JsonVal), JsonVal.beq a a = true
  | .null => rfl
  | .str s => by simp [JsonVal.beq]
  | .int i => by simp [JsonVal.beq]
  | .rat q => by simp [JsonVal.beq]
  | .list xs => jsonValBeqListRefl xs
  | .obj fs => jsonValBeqFieldsRefl fs

theorem jsonValBeqListRefl : ∀ (xs : List JsonVal), JsonVal.beqList xs xs = true
  | [] => rfl
  | x :: xs => by
    simp only [JsonVal.beqList, Bool.and_eq_true]
    exact ⟨jsonValBeqRefl x, jsonValBeqListRefl xs⟩

theorem jsonValBeqFieldsRefl : ∀ (fs : List (Str × JsonVal)), JsonVal.beqFields fs fs = true
  | [] => rfl
  | (k, v) :: fs => by
    simp only [JsonVal.beqFields, Bool.and_eq_true]
    exact ⟨⟨by simp, jsonValBeqRefl v⟩, jsonValBeqFieldsRefl fs⟩
end

theorem addPropsBeqRefl (a : AddProps) : AddProps.beq a a = true := by
  unfold AddProps.beq
  simp only [Bool.and_eq_true]
  refine ⟨⟨by simp, ?_⟩, by simp⟩
  cases a.resolution with
  | none => rfl
  | some r => exact jsonValBeqRefl r

theorem entityModelBeqRefl (e : EntityModel) : EntityModel.beq e e = true := by
  unfold EntityModel.beq
  simp only [Bool.and_eq_true]
  refine ⟨⟨⟨⟨by simp, by simp⟩, by simp⟩, by simp⟩, ?_⟩
  cases e.additional_properties with
  | none => rfl
  | some p => exact addPropsBeqRefl p

theorem EntityModel.beq_components {a b : EntityModel} (h : EntityModel.beq a b = true) :
    a.type = b.type ∧ a.start_index = b.start_index ∧ a.end_index = b.end_index := by
  unfold EntityModel.beq at h
  simp only [Bool.and_eq_true] at h
  obtain ⟨⟨⟨⟨h1, h2⟩, h3⟩, h4⟩, h5⟩ := h
  exact ⟨by simpa using h1, by simpa using h3, by simpa using h4⟩

theorem pyIn_append (x : EntityModel) (a b : List EntityModel) :
    pyIn x (a ++ b) = (pyIn x a || pyIn x b) :=
  List.any_append

theorem pyIn_append_self (x : EntityModel) (a : List EntityModel) :
    pyIn x (a ++ [x]) = true := by
  rw [pyIn_append]
  have : pyIn x [x] = true := by
    simp [pyIn, entityModelBeqRefl x]
  rw [this, Bool.or_true]

theorem innerLoop_cov (c : Str) (p : EntityModel) (verbose : Bool) (es : List EntityModel) :
    ∀ (cov : List EntityModel) (ch : EMap) (cov' : List EntityModel) (ch' : EMap),
    innerLoop c p verbose es cov ch = .ok (cov', ch') →
    (∃ ext, cov' = cov ++ ext
      ∧ ∀ y ∈ ext, y ∈ es ∧ c = y.type ∧ composite_contains_entity p y = true)
    ∧ (∀ e ∈ es, c = e.type → composite_contains_entity p e = true → pyIn e cov' = true) := by
  induction es with
  | nil =>
    intro cov ch cov' ch' h
    simp only [innerLoop, Except.ok.injEq, Prod.mk.injEq] at h
    refine ⟨⟨[], ?_, by simp⟩, ?_⟩
    · rw [List.append_nil]; exact h.1.symm
    · intro e he
      exact absurd he (List.not_mem_nil e)
  | cons e es ih =>
    intro cov ch cov' ch' h
    simp only [innerLoop] at h
    cases hin : pyIn e cov with
    | true =>
      simp only [hin, iteTrueEq] at h
      obtain ⟨⟨ext, hext, hsound⟩, hcomp⟩ := ih cov ch cov' ch' h
      refine ⟨⟨ext, hext, fun y hy => ?_⟩, fun x hx htyx hctx => ?_⟩
      · obtain ⟨hyes, hty, hct⟩ := hsound y hy
        exact ⟨List.mem_cons_of_mem e hyes, hty, hct⟩
      · cases List.mem_cons.mp hx with
        | inl hxe =>
          subst hxe
          rw [hext, pyIn_append, hin, Bool.true_or]
        | inr hxes => exact hcomp x hxes htyx hctx
    | false =>
      simp only [hin, iteFalseEq] at h
      cases hgd : (c != e.type || !composite_contains_entity p e) with
      | true =>
        simp only [hgd, iteTrueEq] at h
        obtain ⟨⟨ext, hext, hsound⟩, hcomp⟩ := ih cov ch cov' ch' h
        refine ⟨⟨ext, hext, fun y hy => ?_⟩, fun x hx htyx hctx => ?_⟩
        · obtain ⟨hyes, hty, hct⟩ := hsound y hy
          exact ⟨List.mem_cons_of_mem e hyes, hty, hct⟩
        · cases List.mem_cons.mp hx with
          | inl hxe =>
            exfalso
            subst hxe
            rw [← htyx] at hgd
            simp [hctx] at hgd
          | inr hxes => exact hcomp x hxes htyx hctx
      | false =>
        simp only [hgd, iteFalseEq] at h
        have hor : (c != e.type) = false ∧ (!composite_contains_entity p e) = false :=
          Bool.or_eq_false_iff.mp hgd
        have hty : c = e.type := by
          have h1 := hor.1
          simpa using h1
        have hct : composite_contains_entity p e = true := by
          have h2 := hor.2
          simpa using h2
        have finish : ∀ (ch2 : EMap), innerLoop c p verbose es (cov ++ [e]) ch2 = .ok (cov', ch') →
            (∃ ext, cov' = cov ++ ext
              ∧ ∀ y ∈ ext, y ∈ e :: es ∧ c = y.type ∧ composite_contains_entity p y = true)
            ∧ (∀ x ∈ e :: es, c = x.type → composite_contains_entity p x = true →
                pyIn x cov' = true) := by
          intro ch2 h2
          obtain ⟨⟨ext, hext, hsound⟩, hcomp⟩ := ih (cov ++ [e]) ch2 cov' ch' h2
          refine ⟨⟨e :: ext, ?_, fun y hy => ?_⟩, fun x hx htyx hctx => ?_⟩
          · rw [hext, List.append_assoc]
            rfl
          · cases List.mem_cons.mp hy with
            | inl hye =>
              subst hye
              exact ⟨List.mem_cons_self y es, hty, hct⟩
            | inr hyext =>
              obtain ⟨hyes, hty2, hct2⟩ := hsound y hyext
              exact ⟨List.mem_cons_of_mem e hyes, hty2, hct2⟩
          · cases List.mem_cons.mp hx with
            | inl hxe =>
              subst hxe
              rw [hext, pyIn_append, pyIn_append_self, Bool.true_or]
            | inr hxes => exact hcomp x hxes htyx hctx
        cases hv : extract_entity_value e with
        | error err =>
          simp only [hv] at h
          exact nomatch h
        | ok v =>
          simp only [hv] at h
          cases ha : add_property ch (extract_normalized_entity_name e) v with
          | error err =>
            simp only [ha] at h
            exact nomatch h
          | ok ch1 =>
            simp only [ha] at h
            cases verbose with
            | false =>
              simp only [iteFalseEq] at h
              exact finish ch1 h
            | true =>
              simp only [iteTrueEq] at h
              cases hm : extract_entity_metadata e with
              | error err =>
                simp only [hm] at h
                exact nomatch h
              | ok md =>
                simp only [hm] at h
                cases hai : addToInstance ch1 (extract_normalized_entity_name e) md with
                | error err =>
                  simp only [hai] at h
                  exact nomatch h
                | ok ch2 =>
                  simp only [hai] at h
                  exact finish ch2 h

theorem childLoop_cov (p : EntityModel) (entities : List EntityModel) (verbose : Bool)
    (cs : List CompositeChildModel) :
    ∀ (cov : List EntityModel) (ch : EMap) (cov' : List EntityModel) (ch' : EMap),
    childLoop p entities verbose cs cov ch = .ok (cov', ch') →
    (∃ ext, cov' = cov ++ ext
      ∧ ∀ y ∈ ext, y ∈ entities ∧ (cs.any fun cc => cc.type == y.type) = true
          ∧ composite_contains_entity p y = true)
    ∧ (∀ e ∈ entities, ∀ cc ∈ cs, cc.type = e.type →
        composite_contains_entity p e = true → pyIn e cov' = true) := by
  induction cs with
  | nil =>
    intro cov ch cov' ch' h
    simp only [childLoop, Except.ok.injEq, Prod.mk.injEq] at h
    refine ⟨⟨[], ?_, by simp⟩, ?_⟩
    · rw [List.append_nil]; exact h.1.symm
    · intro e _ cc hcc
      exact absurd hcc (List.not_mem_nil cc)
  | cons c cs ih =>
    intro cov ch cov' ch' h
    simp only [childLoop] at h
    cases hil : innerLoop c.type p verbose entities cov ch with
    | error err =>
      simp only [hil] at h
      exact nomatch h
    | ok pr1 =>
      obtain ⟨cov1, ch1⟩ := pr1
      simp only [hil] at h
      obtain ⟨⟨ext1, hext1, hsound1⟩, hcomp1⟩ :=
        innerLoop_cov c.type p verbose entities cov ch cov1 ch1 hil
      obtain ⟨⟨ext2, hext2, hsound2⟩, hcomp2⟩ := ih cov1 ch1 cov' ch' h
      refine ⟨⟨ext1 ++ ext2, ?_, fun y hy => ?_⟩, fun e he cc hcc hty hct => ?_⟩
      · rw [hext2, hext1, List.append_assoc]
      · cases List.mem_append.mp hy with
        | inl h1 =>
          obtain ⟨hm, ht, hc⟩ := hsound1 y h1
          refine ⟨hm, ?_, hc⟩
          rw [List.any_cons]
          have : (c.type == y.type) = true := by simp [ht]
          rw [this, Bool.true_or]
        | inr h2 =>
          obtain ⟨hm, ht, hc⟩ := hsound2 y h2
          refine ⟨hm, ?_, hc⟩
          rw [List.any_cons, ht, Bool.or_true]
      · cases List.mem_cons.mp hcc with
        | inl hcceq =>
          subst hcceq
          have h1 := hcomp1 e he hty hct
          rw [hext2, pyIn_append, h1, Bool.true_or]
        | inr hcccs => exact hcomp2 e he cc hcccs hty hct

/-- C3: when `populate_composite_entity_model` resolves a composite whose
parent entity is `p`, the returned working list is the input list with
exactly those entities removed whose type equals one of the expected child
types and whose span is contained in the parent's span; in particular a
matching-type entity outside the parent's span survives. -/
theorem c3_composite_child_grouping (ce : CompositeEntityModel) (entities : List EntityModel)
    (acc : EMap) (verbose : Bool) (p : EntityModel) (res : EMap × List EntityModel)
    (hfind : entities.find? (fun e => e.type == ce.parent_type && e.entity == ce.value) = some p)
    (h : populate_composite_entity_model ce entities acc verbose = .ok res) :
    res.2 = entities.filter (fun e => !(eligibleChild ce p e)) := by
  simp only [populate_composite_entity_model, hfind] at h
  cases hmeta : (if verbose = true then extract_entity_metadata p
      else Except.ok (JsonVal.obj [])) with
  | error err =>
    simp only [hmeta] at h
    exact nomatch h
  | ok cm =>
    simp only [hmeta] at h
    cases hcl : childLoop p entities verbose ce.children []
        (if verbose = true then [(instKey, JsonVal.obj [])] else []) with
    | error err =>
      simp only [hcl] at h
      exact nomatch h
    | ok pr =>
      obtain ⟨covered, children⟩ := pr
      simp only [hcl] at h
      cases hap : add_property acc (extract_normalized_entity_name p) (JsonVal.obj children) with
      | error err =>
        simp only [hap] at h
        exact nomatch h
      | ok acc1 =>
        simp only [hap] at h
        cases hai : (if verbose = true
            then addToInstance acc1 (extract_normalized_entity_name p) cm
            else Except.ok acc1) with
        | error err =>
          simp only [hai] at h
          exact nomatch h
        | ok acc2 =>
          simp only [hai, Except.ok.injEq] at h
          rw [← h]
          apply List.filter_congr
          intro e he
          congr 1
          obtain ⟨⟨ext, hext, hsound⟩, hcomp⟩ :=
            childLoop_cov p entities verbose ce.children []
              (if verbose = true then [(instKey, JsonVal.obj [])] else []) covered children hcl
          cases hel : eligibleChild ce p e with
          | true =>
            have hel' := hel
            unfold eligibleChild at hel'
            rw [Bool.and_eq_true] at hel'
            obtain ⟨hany, hct⟩ := hel'
            obtain ⟨cc, hcc, hcct⟩ := List.any_eq_true.mp hany
            have hcty : cc.type = e.type := by simpa using hcct
            exact hcomp e he cc hcc hcty hct
          | false =>
            cases hp : pyIn e covered with
            | false => rfl
            | true =>
              exfalso
              obtain ⟨y, hy, hbeq⟩ := List.any_eq_true.mp hp
              rw [hext] at hy
              simp only [List.nil_append] at hy
              obtain ⟨hym, hyany, hyct⟩ := hsound y hy
              obtain ⟨hty, hsi, hei⟩ := EntityModel.beq_components hbeq
              have hany : (ce.children.any fun cc => cc.type == e.type) = true := by
                rw [hty]
                exact hyany
              have hcont : composite_contains_entity p e = true := by
                unfold composite_contains_entity at hyct ⊢
                rw [hsi, hei]
                exact hyct
              unfold eligibleChild at hel
              rw [hany, hcont] at hel
              exact nomatch hel

theorem c3_witness :
    ([roomParent, cityOut] : List EntityModel) =
      [roomParent, cityIn, cityOut].filter (fun e => !(eligibleChild roomComposite roomParent e)) :=
  c3_composite_child_grouping roomComposite [roomParent, cityIn, cityOut] [] false roomParent
    ([("roomBooking".toList, .list [.obj [("city".toList, .list [.str "rome".toList])]])],
      [roomParent, cityOut])
    rfl rfl
